import Mathlib

/-!
# Verification of the Trading 212 portfolio analyzer

Shallow embedding of `portfolio_analyzer.py` (the ledger accumulator
`analyze_portfolio`, the currency converter `get_fx_rate`, and the report
builder), together with proofs of the specification's claims about them.

Modelling conventions:

* Python/numpy floating-point scalars are modelled by `PVal`: either a rational
  number or `PVal.nan`.  `pd.to_numeric(x, errors='coerce')` yields NaN on a
  coercion failure; NaN propagates through arithmetic, and every ordered
  comparison against NaN is `false`, exactly as in IEEE /numpy.  (IEEE
  infinities are not distinguished from NaN: the only division in the
  accumulator, `shares / (shares_after + shares)`, divides by zero only in the
  degenerate case `shares_after + shares = 0`, which no claim reaches; we map
  that case to `PVal.nan`.)
* The Python dict `positions` (insertion-ordered) is an association list
  `List (String × Position)`; `setPos` updates in place or appends a fresh key
  at the end, exactly like dict assignment.
* The external market-data and FX lookups (`yfinance`) are oracle parameters:
  `priceOf : String → ℚ × String` for `get_correct_ticker_and_price`'s result
  and `lookup : String → Except Unit (Option ℚ)` for the
  `yf.Ticker(t).info.get('regularMarketPrice', default)` call inside
  `get_fx_rate` (`.error` = the call raised, `.ok none` = key absent so the
  hard-coded default is used, `.ok (some r)` = the live rate `r`).
* The accumulator consumes the record list in the order given; upstream the
  script sorts rows by parsed timestamp, so the list passed in is the
  already-sorted sequence (spec §4.3's input contract).
* The `transactions` history list appended to each position is never read by
  any downstream computation and is omitted from `Position`.
-/

/-- A Python/numpy float value: a rational, or NaN (the result of a failed
`pd.to_numeric(..., errors='coerce')`, propagated through arithmetic). -/
inductive PVal where
  | nan : PVal
  | val : ℚ → PVal
deriving DecidableEq, Repr

namespace PVal

/-- Addition; NaN propagates. -/
def add : PVal → PVal → PVal
  | val a, val b => val (a + b)
  | _, _ => nan

/-- Subtraction; NaN propagates. -/
def sub : PVal → PVal → PVal
  | val a, val b => val (a - b)
  | _, _ => nan

/-- Multiplication; NaN propagates. -/
def mul : PVal → PVal → PVal
  | val a, val b => val (a * b)
  | _, _ => nan

/-- Negation; NaN propagates. -/
def neg : PVal → PVal
  | val a => val (-a)
  | nan => nan

/-- Absolute value, Python `abs`; `abs(nan) = nan`. -/
def abs : PVal → PVal
  | val a => val |a|
  | nan => nan

/-- Division; NaN propagates, and division by zero is collapsed to NaN
(numpy emits inf/nan with a suppressed warning; no claim distinguishes
the two). -/
def div : PVal → PVal → PVal
  | val a, val b => if b = 0 then nan else val (a / b)
  | _, _ => nan

/-- The comparison `x > q` against a rational constant: `false` whenever
`x` is NaN, as in Python/numpy. -/
def gtQ : PVal → ℚ → Bool
  | val a, q => decide (q < a)
  | nan, _ => false

/-- Strict `<` between two values; `false` whenever either side is NaN. -/
def ltB : PVal → PVal → Bool
  | val a, val b => decide (a < b)
  | _, _ => false

/-- The Python idiom `x or 0` applied to a float: `0.0` is falsy and replaced
by `0`, every nonzero rational is truthy, and — crucially — NaN is truthy in
Python, so `nan or 0` is still NaN. -/
def orZero : PVal → PVal
  | nan => nan
  | val q => if q = 0 then val 0 else val q

end PVal

/-- One row of the CSV statement, with its numeric fields already passed
through `pd.to_numeric(·, errors='coerce')`: a field that failed coercion
(or was missing) is `PVal.nan`. -/
structure Record where
  action : String
  ticker : String
  quantity : PVal
  total : PVal
  convFee : PVal
deriving DecidableEq, Repr

/-- A per-instrument position: `{'shares': ..., 'cost_eur': ...}` (the
write-only `transactions` history is omitted). -/
structure Position where
  shares : PVal
  cost_eur : PVal
deriving DecidableEq, Repr

/-- Accumulator state: the cash scalar and the insertion-ordered
`ticker -> position` dict. -/
structure PState where
  cash : PVal
  positions : List (String × Position)
deriving DecidableEq, Repr

/-- Dict lookup on the association list (first entry with the key wins;
keys are unique in any state the accumulator builds). -/
def lookupPos : List (String × Position) → String → Option Position
  | [], _ => none
  | kv :: rest, t => if kv.1 = t then some kv.2 else lookupPos rest t

/-- Dict assignment `positions[t] = p`: replace the entry in place when the
key exists, otherwise append it (Python dicts preserve insertion order). -/
def setPos (ps : List (String × Position)) (t : String) (p : Position) :
    List (String × Position) :=
  if (lookupPos ps t).isSome then
    ps.map (fun kv => if kv.1 = t then (t, p) else kv)
  else
    ps ++ [(t, p)]

/-- One iteration of the transaction loop in `analyze_portfolio`
(`for idx, row in df.iterrows(): ...`), lines 137–196 of
`portfolio_analyzer.py`, transcribed branch by branch. -/
def step (s : PState) (r : Record) : PState :=
  let amount := r.total.orZero
  if r.action = "Deposit" then
    { s with cash := s.cash.add amount }
  else if r.action = "Withdrawal" then
    { s with cash := s.cash.add amount }
  else if r.action = "Interest on cash" then
    { s with cash := s.cash.add amount }
  else if r.action = "Market buy" ∨ r.action = "Limit buy" then
    let shares := r.quantity.orZero
    let cost_eur := amount.abs
    let conv_fee := r.convFee.orZero
    let total_cost := cost_eur.add conv_fee
    let pos := (lookupPos s.positions r.ticker).getD ⟨PVal.val 0, PVal.val 0⟩
    let pos' : Position := ⟨pos.shares.add shares, pos.cost_eur.add total_cost⟩
    { cash := s.cash.sub total_cost,
      positions := setPos s.positions r.ticker pos' }
  else if r.action = "Market sell" ∨ r.action = "Limit sell" then
    let shares := r.quantity.orZero
    let proceeds_eur := amount.abs
    let conv_fee := r.convFee.orZero
    let net_proceeds := proceeds_eur.sub conv_fee
    match lookupPos s.positions r.ticker with
    | none => { s with cash := s.cash.add net_proceeds }
    | some pos =>
        let sharesAfter := pos.shares.sub shares
        let cost' :=
          if sharesAfter.gtQ 0 then
            let ratio := shares.div (sharesAfter.add shares)
            pos.cost_eur.mul ((PVal.val 1).sub ratio)
          else PVal.val 0
        { cash := s.cash.add net_proceeds,
          positions := setPos s.positions r.ticker ⟨sharesAfter, cost'⟩ }
  else s

/-- The full accumulator pass: fold `step` over the (timestamp-sorted)
transaction sequence starting from zero cash and no positions. -/
def analyze_portfolio (rs : List Record) : PState :=
  rs.foldl step ⟨PVal.val 0, []⟩

/-- Post-pass dust filter, line 199:
`positions = {k: v for k, v in positions.items() if v['shares'] > 0.001}`. -/
def finalPositions (s : PState) : List (String × Position) :=
  s.positions.filter (fun kv => kv.2.shares.gtQ (1 / 1000))

/-- The hard-coded fallback table inside `get_fx_rate`'s `except` branch:
`fallback_rates = {'USD': 0.92, 'GBP': 1.17}`, read with `.get(from, 1.0)`. -/
def fallback_rates (c : String) : ℚ :=
  if c = "USD" then 92 / 100 else if c = "GBP" then 117 / 100 else 1

/-- `get_fx_rate(from_currency, to_currency='EUR')`, lines 43–62.  The
`yf.Ticker(t).info.get('regularMarketPrice', default)` call is the oracle
`lookup`: `.error` means the call raised (handled by the `except` branch),
`.ok none` means the key was absent so the hard-coded default is used
(`1.08` for USD, `0.85` for GBP), `.ok (some r)` is the live rate.  A zero
live rate would make `1/rate` raise `ZeroDivisionError`, also caught by the
`except` branch. -/
def get_fx_rate (lookup : String → Except Unit (Option ℚ))
    (from_currency : String) (to_currency : String) : ℚ :=
  if from_currency = to_currency then 1
  else if from_currency = "USD" then
    match lookup "EURUSD=X" with
    | .ok (some rate) => if rate = 0 then fallback_rates "USD" else 1 / rate
    | .ok none => 1 / (108 / 100)
    | .error _ => fallback_rates "USD"
  else if from_currency = "GBP" then
    match lookup "EURGBP=X" with
    | .ok (some rate) => if rate = 0 then fallback_rates "GBP" else 1 / rate
    | .ok none => 1 / (85 / 100)
    | .error _ => fallback_rates "GBP"
  else 1

/-- Lines 226–230: convert a native-currency price to EUR
(`if currency != 'EUR': price * get_fx_rate(currency, 'EUR') else price`). -/
def priceToEur (lookup : String → Except Unit (Option ℚ))
    (currency : String) (price : ℚ) : ℚ :=
  if currency ≠ "EUR" then price * get_fx_rate lookup currency "EUR" else price

/-- One row of `portfolio_data`, lines 236–245. -/
structure ValuedRow where
  ticker : String
  shares : PVal
  avgCost : PVal
  costEur : PVal
  priceEur : ℚ
  valueEur : PVal
  pnlEur : PVal
  pnlPercent : PVal
deriving DecidableEq, Repr

/-- The valuation of one surviving position, lines 217–245.
`priceOf` is the oracle for `get_correct_ticker_and_price` (a mocked
deterministic market-data adapter returning price and quote currency). -/
def valueRow (lookup : String → Except Unit (Option ℚ))
    (priceOf : String → ℚ × String) (kv : String × Position) : ValuedRow :=
  let pos := kv.2
  let avg_cost :=
    if pos.shares.gtQ 0 then pos.cost_eur.div pos.shares else PVal.val 0
  let pc := priceOf kv.1
  let current_price_eur := priceToEur lookup pc.2 pc.1
  let market_value := (PVal.val current_price_eur).mul pos.shares
  let pnl_eur := market_value.sub pos.cost_eur
  let pnl_percent :=
    if pos.cost_eur.gtQ 0 then (pnl_eur.div pos.cost_eur).mul (PVal.val 100)
    else PVal.val 0
  ⟨kv.1, pos.shares, avg_cost, pos.cost_eur, current_price_eur, market_value,
    pnl_eur, pnl_percent⟩

/-- `portfolio_data`: the valuation loop runs over the dust-filtered
positions in dict iteration order. -/
def portfolioRows (lookup : String → Except Unit (Option ℚ))
    (priceOf : String → ℚ × String) (s : PState) : List ValuedRow :=
  (finalPositions s).map (valueRow lookup priceOf)

/-- `total_invested`: accumulated over the valuation loop, line 247. -/
def total_invested_of (lookup : String → Except Unit (Option ℚ))
    (priceOf : String → ℚ × String) (s : PState) : PVal :=
  (portfolioRows lookup priceOf s).foldl (fun a r => a.add r.costEur) (PVal.val 0)

/-- `total_market_value`: accumulated over the valuation loop, line 248. -/
def total_market_value_of (lookup : String → Except Unit (Option ℚ))
    (priceOf : String → ℚ × String) (s : PState) : PVal :=
  (portfolioRows lookup priceOf s).foldl (fun a r => a.add r.valueEur) (PVal.val 0)

/-- Stable insertion of a row into a value-descending list: the row goes in
front of the first element whose value is strictly smaller (NaN values
compare false both ways, as in Python). -/
def insertByValue (row : ValuedRow) : List ValuedRow → List ValuedRow
  | [] => [row]
  | r :: rest =>
      if r.valueEur.ltB row.valueEur then row :: r :: rest
      else r :: insertByValue row rest

/-- `sorted(portfolio_data, key=lambda x: x['Value Euro'], reverse=True)`:
a stable descending sort (Python's sort is stable; ties keep original
order). -/
def sortByValueDesc : List ValuedRow → List ValuedRow
  | [] => []
  | r :: rest => insertByValue r (sortByValueDesc rest)

/-- Python `max(l, key=...)`: the first maximal element wins; the current
best is replaced only when the candidate's key is strictly greater. -/
def maxByValue (first : ValuedRow) (rest : List ValuedRow) : ValuedRow :=
  rest.foldl (fun best x => if best.valueEur.ltB x.valueEur then x else best) first

/-- Python `max(l, key=lambda x: x['P&L %'])`. -/
def maxByPnlPercent (first : ValuedRow) (rest : List ValuedRow) : ValuedRow :=
  rest.foldl (fun best x => if best.pnlPercent.ltB x.pnlPercent then x else best) first

/-- Python `min(l, key=lambda x: x['P&L %'])`: the first minimal element
wins; the current best is replaced only when strictly smaller. -/
def minByPnlPercent (first : ValuedRow) (rest : List ValuedRow) : ValuedRow :=
  rest.foldl (fun best x => if x.pnlPercent.ltB best.pnlPercent then x else best) first

/-- Everything the persisted report serializes (lines 309–347), in order of
computation.  The generation timestamp (`datetime.now().strftime(...)`,
line 344) enters as the pre-rendered string `generatedAt`. -/
structure ReportData where
  cash : PVal
  rows : List ValuedRow
  total_invested : PVal
  total_market_value : PVal
  total_account_value : PVal
  unrealized_pnl : PVal
  unrealized_pnl_percent : PVal
  largest_position : String
  best_performer : String
  worst_performer : String
  position_count : Nat
  cash_allocation_percent : PVal
  generatedAt : String
deriving DecidableEq, Repr

/-- The outcome of the post-pass stage: either the early `return` at lines
204–206 (`"No active positions found"`, nothing persisted beyond that
message) or a full report. -/
inductive ReportResult where
  | noPositions : ReportResult
  | report : ReportData → ReportResult
deriving DecidableEq, Repr

/-- Lines 199–347 after the accumulator pass: dust-filter, empty check,
valuation loop, totals (lines 251–253), value-descending sort (line 256)
and the additional metrics (lines 295–303).  `max`/`min` are applied to the
sorted list, as in the source; the `[]` fallbacks for them are unreachable
because the sort of a nonempty list is nonempty (Python would raise there).
`cash_allocation_percent` (line 303) is unguarded in the source; its
division by a zero total maps to NaN here (numpy produces inf/nan under a
suppressed warning). -/
def buildReport (lookup : String → Except Unit (Option ℚ))
    (priceOf : String → ℚ × String) (now : String) (s : PState) : ReportResult :=
  if finalPositions s = [] then ReportResult.noPositions
  else
    let rows := portfolioRows lookup priceOf s
    let total_invested := total_invested_of lookup priceOf s
    let total_market_value := total_market_value_of lookup priceOf s
    let total_account_value := s.cash.add total_market_value
    let unrealized_pnl := total_market_value.sub total_invested
    let unrealized_pnl_percent :=
      if total_invested.gtQ 0 then
        (unrealized_pnl.div total_invested).mul (PVal.val 100)
      else PVal.val 0
    let sorted_portfolio := sortByValueDesc rows
    let largest :=
      match sorted_portfolio with
      | [] => ""
      | x :: xs => (maxByValue x xs).ticker
    let best :=
      match sorted_portfolio with
      | [] => ""
      | x :: xs => (maxByPnlPercent x xs).ticker
    let worst :=
      match sorted_portfolio with
      | [] => ""
      | x :: xs => (minByPnlPercent x xs).ticker
    let cash_allocation := (s.cash.div total_account_value).mul (PVal.val 100)
    ReportResult.report
      ⟨s.cash, sorted_portfolio, total_invested, total_market_value,
        total_account_value, unrealized_pnl, unrealized_pnl_percent,
        largest, best, worst, (finalPositions s).length, cash_allocation, now⟩

/-- The whole pipeline on an already-sorted record sequence, with the
market-data and FX collaborators supplied as deterministic oracles and the
wall clock supplied as the pre-rendered timestamp string `now`. -/
def runPipeline (rs : List Record)
    (lookup : String → Except Unit (Option ℚ))
    (priceOf : String → ℚ × String) (now : String) : ReportResult :=
  buildReport lookup priceOf now (analyze_portfolio rs)

/-- Exact decimal rendering of a value (the source formats with fixed
precision; the rendering is injective on the data, which is all the
byte-identity arguments use). -/
def PVal.render : PVal → String
  | PVal.nan => "nan"
  | PVal.val q => toString q

/-- One line of the ticker table (line 330). -/
def renderRow (r : ValuedRow) : String :=
  r.ticker ++ " " ++ r.shares.render ++ " " ++ r.avgCost.render ++ " " ++
  r.costEur.render ++ " " ++ (toString r.priceEur) ++ " " ++
  r.valueEur.render ++ " " ++ r.pnlEur.render ++ " " ++ r.pnlPercent.render ++ "\n"

/-- The body of `report_content` before the generation timestamp: account
summary, ticker table, totals row and additional metrics (lines 309–343). -/
def renderBody (d : ReportData) : String :=
  "TRADING 212 PORTFOLIO SUMMARY\n" ++
  "Free cash: " ++ d.cash.render ++ "\n" ++
  "Invested amount: " ++ d.total_invested.render ++ "\n" ++
  "Portfolio value: " ++ d.total_market_value.render ++ "\n" ++
  "TOTAL ACCOUNT: " ++ d.total_account_value.render ++ "\n" ++
  "Unrealised PnL: " ++ d.unrealized_pnl.render ++ " (" ++
    d.unrealized_pnl_percent.render ++ "%)\n" ++
  String.join (d.rows.map renderRow) ++
  "TOTAL " ++ d.total_invested.render ++ " " ++ d.total_market_value.render ++
    " " ++ d.unrealized_pnl.render ++ " " ++ d.unrealized_pnl_percent.render ++ "%\n" ++
  "Largest position: " ++ d.largest_position ++ "\n" ++
  "Best performer: " ++ d.best_performer ++ "\n" ++
  "Worst performer: " ++ d.worst_performer ++ "\n" ++
  "Portfolio size: " ++ (toString d.position_count) ++ " positions\n" ++
  "Cash allocation: " ++ d.cash_allocation_percent.render ++ "% of total account\n"

/-- The footer after the timestamp (lines 345–347): constant text. -/
def renderFooter : String :=
  "\nData source: Trading 212 combined statement\n"

/-- The persisted bytes of `report_content`: body, then the
`Report generated on:` line (line 344), then the constant footer.  In the
no-positions case nothing is persisted; we render the console message. -/
def render : ReportResult → String
  | ReportResult.noPositions => "No active positions found"
  | ReportResult.report d =>
      renderBody d ++ ("Report generated on: " ++ d.generatedAt) ++ renderFooter

/-- Replace the generation timestamp by a fixed string: two report results
agree under `stripStamp` exactly when they differ at most in the clock
reading baked into the report. -/
def stripStamp : ReportResult → ReportResult
  | ReportResult.noPositions => ReportResult.noPositions
  | ReportResult.report d => ReportResult.report { d with generatedAt := "" }

/-- Is the record one of the seven labels the accumulator recognizes as
moving cash? -/
def cashAffecting (r : Record) : Bool :=
  decide (r.action = "Deposit" ∨ r.action = "Withdrawal" ∨
    r.action = "Interest on cash" ∨ r.action = "Market buy" ∨
    r.action = "Limit buy" ∨ r.action = "Market sell" ∨ r.action = "Limit sell")

/-- Modelled from the spec's cash-conservation formula (spec §8, claim C2):
the signed cash contribution of one record — deposit/withdrawal/interest
amounts as given, `−(|total| + fee)` for a buy, `|total| − fee` for a sell,
nothing otherwise.  Amounts are the coerced field values, as in the code. -/
def specCashDelta (r : Record) : PVal :=
  if r.action = "Deposit" ∨ r.action = "Withdrawal" ∨
      r.action = "Interest on cash" then
    r.total.orZero
  else if r.action = "Market buy" ∨ r.action = "Limit buy" then
    ((r.total.orZero.abs).add r.convFee.orZero).neg
  else if r.action = "Market sell" ∨ r.action = "Limit sell" then
    (r.total.orZero.abs).sub r.convFee.orZero
  else PVal.val 0

/-- The keys of an association list. -/
def posKeys (ps : List (String × Position)) : List String :=
  ps.map Prod.fst

/-! ## Helper lemmas -/

theorem PVal.sub_eq_add_neg (x y : PVal) : x.sub y = x.add y.neg := by
  cases x <;> cases y <;> simp only [PVal.sub, PVal.add, PVal.neg]
  ring_nf

theorem PVal.add_val_zero (x : PVal) : x.add (PVal.val 0) = x := by
  cases x <;> simp [PVal.add]

theorem lookupPos_append_of_none (ps qs : List (String × Position)) (t : String)
    (h : lookupPos ps t = none) : lookupPos (ps ++ qs) t = lookupPos qs t := by
  induction ps with
  | nil => rfl
  | cons kv rest ih =>
      by_cases hk : kv.1 = t
      · simp [lookupPos, hk] at h
      · simp only [lookupPos, hk, if_false, List.cons_append] at h ⊢
        exact ih h

theorem lookupPos_append_of_some (ps qs : List (String × Position)) (t : String)
    (p : Position) (h : lookupPos ps t = some p) :
    lookupPos (ps ++ qs) t = some p := by
  induction ps with
  | nil => simp [lookupPos] at h
  | cons kv rest ih =>
      by_cases hk : kv.1 = t
      · simp only [lookupPos, hk, if_true] at h
        simp only [List.cons_append, lookupPos, hk, if_true]
        exact h
      · simp only [lookupPos, hk, if_false] at h
        simp only [List.cons_append, lookupPos, hk, if_false]
        exact ih h

theorem lookupPos_eq_none_iff (ps : List (String × Position)) (t : String) :
    lookupPos ps t = none ↔ t ∉ posKeys ps := by
  induction ps with
  | nil => simp [lookupPos, posKeys]
  | cons kv rest ih =>
      by_cases h : kv.1 = t
      · simp [lookupPos, posKeys, h]
      · have h' : ¬t = kv.1 := fun hh => h hh.symm
        simp [lookupPos, posKeys, h, h', ih]

theorem lookupPos_mapSet_self (ps : List (String × Position)) (t : String)
    (p : Position) (h : (lookupPos ps t).isSome) :
    lookupPos (ps.map (fun kv => if kv.1 = t then (t, p) else kv)) t = some p := by
  induction ps with
  | nil => simp [lookupPos] at h
  | cons kv rest ih =>
      by_cases hk : kv.1 = t
      · simp [lookupPos, hk]
      · simp only [lookupPos, hk, if_false] at h
        simp only [List.map_cons, if_neg hk, lookupPos, hk, if_false]
        exact ih h

theorem lookupPos_mapSet_ne (ps : List (String × Position)) (t t' : String)
    (p : Position) (h : t' ≠ t) :
    lookupPos (ps.map (fun kv => if kv.1 = t then (t, p) else kv)) t'
      = lookupPos ps t' := by
  induction ps with
  | nil => rfl
  | cons kv rest ih =>
      by_cases hk : kv.1 = t
      · have ht' : ¬t = t' := fun hh => h hh.symm
        simp [lookupPos, hk, ht', ih]
      · by_cases hk' : kv.1 = t'
        · simp [lookupPos, hk, hk', h]
        · simp [lookupPos, hk, hk', h, ih]

theorem lookupPos_setPos_self (ps : List (String × Position)) (t : String)
    (p : Position) : lookupPos (setPos ps t p) t = some p := by
  unfold setPos
  by_cases hs : (lookupPos ps t).isSome
  · rw [if_pos hs]
    exact lookupPos_mapSet_self ps t p hs
  · rw [if_neg hs]
    rw [Option.not_isSome_iff_eq_none] at hs
    rw [lookupPos_append_of_none ps [(t, p)] t hs]
    simp [lookupPos]

theorem lookupPos_setPos_ne (ps : List (String × Position)) (t t' : String)
    (p : Position) (h : t' ≠ t) :
    lookupPos (setPos ps t p) t' = lookupPos ps t' := by
  unfold setPos
  by_cases hs : (lookupPos ps t).isSome
  · rw [if_pos hs]
    exact lookupPos_mapSet_ne ps t t' p h
  · rw [if_neg hs]
    cases hl : lookupPos ps t' with
    | some q => exact lookupPos_append_of_some ps [(t, p)] t' q hl
    | none =>
        rw [lookupPos_append_of_none ps [(t, p)] t' hl]
        have ht' : ¬t = t' := fun hh => h hh.symm
        simp [lookupPos, ht']

theorem posKeys_setPos_of_isSome (ps : List (String × Position)) (t : String)
    (p : Position) (h : (lookupPos ps t).isSome) :
    posKeys (setPos ps t p) = posKeys ps := by
  unfold setPos
  rw [if_pos h]
  unfold posKeys
  rw [List.map_map]
  apply List.map_congr_left
  intro kv _
  by_cases hk : kv.1 = t
  · simp [hk]
  · simp [hk]

theorem posKeys_setPos_of_none (ps : List (String × Position)) (t : String)
    (p : Position) (h : lookupPos ps t = none) :
    posKeys (setPos ps t p) = posKeys ps ++ [t] := by
  unfold setPos
  rw [if_neg (by simp [h])]
  simp [posKeys]

theorem nodup_posKeys_setPos (ps : List (String × Position)) (t : String)
    (p : Position) (h : (posKeys ps).Nodup) :
    (posKeys (setPos ps t p)).Nodup := by
  cases hl : lookupPos ps t with
  | some q =>
      rw [posKeys_setPos_of_isSome ps t p (by simp [hl])]
      exact h
  | none =>
      rw [posKeys_setPos_of_none ps t p hl]
      rw [lookupPos_eq_none_iff] at hl
      simp [List.nodup_append, h, hl]

theorem nodup_posKeys_step (s : PState) (r : Record)
    (h : (posKeys s.positions).Nodup) :
    (posKeys (step s r).positions).Nodup := by
  unfold step
  split_ifs with h1 h2 h3 h4 h5
  · exact h
  · exact h
  · exact h
  · exact nodup_posKeys_setPos _ _ _ h
  · cases hl : lookupPos s.positions r.ticker with
    | none => simpa [hl] using h
    | some pos => simpa [hl] using nodup_posKeys_setPos s.positions r.ticker _ h
  · exact h

theorem nodup_posKeys_analyze (rs : List Record) :
    (posKeys (analyze_portfolio rs).positions).Nodup := by
  unfold analyze_portfolio
  have main : ∀ (l : List Record) (s : PState), (posKeys s.positions).Nodup →
      (posKeys (l.foldl step s).positions).Nodup := by
    intro l
    induction l with
    | nil => intro s hs; exact hs
    | cons r rest ih =>
        intro s hs
        exact ih (step s r) (nodup_posKeys_step s r hs)
  exact main rs ⟨PVal.val 0, []⟩ (by simp [posKeys])

theorem lookupPos_eq_of_mem (ps : List (String × Position)) (t : String)
    (p : Position) (hnd : (posKeys ps).Nodup) (hm : (t, p) ∈ ps) :
    lookupPos ps t = some p := by
  induction ps with
  | nil => simp at hm
  | cons kv rest ih =>
      simp only [posKeys, List.map_cons, List.nodup_cons] at hnd
      rcases List.mem_cons.mp hm with heq | hmem
      · subst heq
        simp [lookupPos]
      · by_cases hk : kv.1 = t
        · exfalso
          apply hnd.1
          rw [hk]
          exact List.mem_map_of_mem Prod.fst hmem
        · simp only [lookupPos, hk, if_false]
          exact ih hnd.2 hmem

theorem mem_of_lookupPos_eq (ps : List (String × Position)) (t : String)
    (p : Position) (h : lookupPos ps t = some p) : (t, p) ∈ ps := by
  induction ps with
  | nil => simp [lookupPos] at h
  | cons kv rest ih =>
      by_cases hk : kv.1 = t
      · simp only [lookupPos, hk, if_true, Option.some.injEq] at h
        have hkv : kv = (t, p) := by
          cases kv
          simp_all
        rw [← hkv]
        exact List.mem_cons_self _ _
      · simp only [lookupPos, hk, if_false] at h
        exact List.mem_cons_of_mem _ (ih h)

theorem step_cash (s : PState) (r : Record) :
    (step s r).cash = s.cash.add (specCashDelta r) := by
  unfold step specCashDelta
  split_ifs with h1 h2 h3 h4 h5 <;>
    try simp_all [PVal.sub_eq_add_neg]
  · cases hl : lookupPos s.positions r.ticker <;> simp
  · exact (PVal.add_val_zero s.cash).symm

theorem foldl_step_cash (rs : List Record) (s : PState) :
    (rs.foldl step s).cash
      = rs.foldl (fun c r => c.add (specCashDelta r)) s.cash := by
  induction rs generalizing s with
  | nil => rfl
  | cons r rest ih =>
      simp only [List.foldl_cons]
      rw [ih (step s r), step_cash]

theorem specCashDelta_of_not_affecting (r : Record)
    (h : cashAffecting r = false) : specCashDelta r = PVal.val 0 := by
  unfold cashAffecting at h
  unfold specCashDelta
  simp only [decide_eq_false_iff_not] at h
  push_neg at h
  obtain ⟨h1, h2, h3, h4, h5, h6, h7⟩ := h
  simp [h1, h2, h3, h4, h5, h6, h7]

theorem foldl_delta_filter (rs : List Record) (c : PVal) :
    rs.foldl (fun c r => c.add (specCashDelta r)) c
      = ((rs.filter cashAffecting).map specCashDelta).foldl PVal.add c := by
  induction rs generalizing c with
  | nil => rfl
  | cons r rest ih =>
      simp only [List.foldl_cons]
      cases ha : cashAffecting r with
      | true => simp only [List.filter_cons_of_pos ha, List.map_cons,
          List.foldl_cons]; exact ih _
      | false =>
          rw [List.filter_cons_of_neg (by simp [ha])]
          rw [specCashDelta_of_not_affecting r ha, PVal.add_val_zero]
          exact ih c

theorem valueRow_ticker (lookup : String → Except Unit (Option ℚ))
    (priceOf : String → ℚ × String) (kv : String × Position) :
    (valueRow lookup priceOf kv).ticker = kv.1 := rfl

theorem valueRow_costEur (lookup : String → Except Unit (Option ℚ))
    (priceOf : String → ℚ × String) (kv : String × Position) :
    (valueRow lookup priceOf kv).costEur = kv.2.cost_eur := rfl

theorem lookupPos_filter_of_false (ps : List (String × Position))
    (f : String × Position → Bool) (t : String) (p : Position)
    (hnd : (posKeys ps).Nodup) (hl : lookupPos ps t = some p)
    (hf : f (t, p) = false) : lookupPos (ps.filter f) t = none := by
  induction ps with
  | nil => simp [lookupPos] at hl
  | cons kv rest ih =>
      simp only [posKeys, List.map_cons, List.nodup_cons] at hnd
      by_cases hk : kv.1 = t
      · simp only [lookupPos, hk, if_true, Option.some.injEq] at hl
        have hkv : kv = (t, p) := by
          cases kv
          simp_all
        subst hkv
        rw [List.filter_cons_of_neg (by simp [hf])]
        rw [lookupPos_eq_none_iff]
        intro hmem
        simp only [posKeys, List.mem_map] at hmem
        obtain ⟨kv', hkv', hfst⟩ := hmem
        exact hnd.1 (List.mem_map.mpr ⟨kv', List.mem_of_mem_filter hkv', hfst⟩)
      · simp only [lookupPos, hk, if_false] at hl
        cases hfk : f kv with
        | true =>
            rw [List.filter_cons_of_pos hfk]
            simp only [lookupPos, hk, if_false]
            exact ih hnd.2 hl
        | false =>
            rw [List.filter_cons_of_neg (by simp [hfk])]
            exact ih hnd.2 hl

theorem lookupPos_filter_of_true (ps : List (String × Position))
    (f : String × Position → Bool) (t : String) (p : Position)
    (hl : lookupPos ps t = some p) (hf : f (t, p) = true) :
    lookupPos (ps.filter f) t = some p := by
  induction ps with
  | nil => simp [lookupPos] at hl
  | cons kv rest ih =>
      by_cases hk : kv.1 = t
      · simp only [lookupPos, hk, if_true, Option.some.injEq] at hl
        have hkv : kv = (t, p) := by
          cases kv
          simp_all
        subst hkv
        rw [List.filter_cons_of_pos hf]
        simp [lookupPos]
      · simp only [lookupPos, hk, if_false] at hl
        cases hfk : f kv with
        | true =>
            rw [List.filter_cons_of_pos hfk]
            simp only [lookupPos, hk, if_false]
            exact ih hl
        | false =>
            rw [List.filter_cons_of_neg (by simp [hfk])]
            exact ih hl

theorem foldl_add_filter (ps : List (String × Position))
    (f : String × Position → Bool) (g : String × Position → PVal) (c : PVal) :
    (ps.filter f).foldl (fun a kv => a.add (g kv)) c
      = ps.foldl (fun a kv => if f kv then a.add (g kv) else a) c := by
  induction ps generalizing c with
  | nil => rfl
  | cons kv rest ih =>
      cases hfk : f kv with
      | true =>
          rw [List.filter_cons_of_pos hfk, List.foldl_cons, List.foldl_cons,
            if_pos hfk]
          exact ih _
      | false =>
          rw [List.filter_cons_of_neg (by simp [hfk]), List.foldl_cons,
            if_neg (by simp [hfk])]
          exact ih c

theorem string_eq_of_data_eq (s t : String) (h : s.data = t.data) : s = t := by
  cases s
  cases t
  exact congrArg String.mk h

/-! ## Claim theorems -/

/-- C1: for a sell of `k` shares against an existing position of `n` shares
with cost basis `c`, the accumulator multiplies the cost basis by exactly
`(n − k)/n` — the retained fraction computed from the pre-sale share count —
and sets shares to `n − k` whenever `k < n`; whenever `k ≥ n` it sets the
cost basis to `0` (shares still become `n − k`, possibly negative). -/
theorem sell_reduces_cost_basis_proportionally (s : PState) (r : Record)
    (n c k : ℚ)
    (hact : r.action = "Market sell" ∨ r.action = "Limit sell")
    (hq : r.quantity.orZero = PVal.val k)
    (hpos : lookupPos s.positions r.ticker = some ⟨PVal.val n, PVal.val c⟩) :
    (k < n → n ≠ 0 →
      lookupPos (step s r).positions r.ticker
        = some ⟨PVal.val (n - k), PVal.val (c * ((n - k) / n))⟩)
    ∧ (n ≤ k →
      lookupPos (step s r).positions r.ticker
        = some ⟨PVal.val (n - k), PVal.val 0⟩) := by
  have hupd : (step s r).positions
      = setPos s.positions r.ticker
          ⟨PVal.val (n - k),
            if (0 : ℚ) < n - k then
              (PVal.val c).mul
                ((PVal.val 1).sub ((PVal.val k).div (PVal.val (n - k + k))))
            else PVal.val 0⟩ := by
    unfold step
    rcases hact with h | h <;>
      simp +decide only [h, hpos, hq, PVal.sub, PVal.add, PVal.gtQ,
        decide_eq_true_eq, if_true, if_false]
  constructor
  · intro hk hn
    rw [hupd, lookupPos_setPos_self]
    have h1 : (0 : ℚ) < n - k := sub_pos.mpr hk
    have h2 : n - k + k = n := by ring
    have h3 : (n - k) / n = 1 - k / n := by rw [sub_div, div_self hn]
    simp only [if_pos h1, h2, PVal.div, hn, if_false, PVal.sub, PVal.mul, h3]
  · intro hk
    rw [hupd, lookupPos_setPos_self]
    rw [if_neg (by linarith)]

/-- C1 witness: selling 1 of 3 shares held at total cost 30 retains
cost basis `30 · (2/3) = 20` and leaves 2 shares. -/
theorem sell_reduces_cost_basis_proportionally_witness :
    lookupPos
      (step ⟨PVal.val 0, [("A", ⟨PVal.val 3, PVal.val 30⟩)]⟩
        ⟨"Market sell", "A", PVal.val 1, PVal.val 0, PVal.val 0⟩).positions
      "A" = some ⟨PVal.val 2, PVal.val 20⟩ := by
  have h := (sell_reduces_cost_basis_proportionally
      ⟨PVal.val 0, [("A", ⟨PVal.val 3, PVal.val 30⟩)]⟩
      ⟨"Market sell", "A", PVal.val 1, PVal.val 0, PVal.val 0⟩
      3 30 1 (Or.inl rfl) (by norm_num [PVal.orZero])
      (by norm_num [lookupPos])).1 (by norm_num) (by norm_num)
  rw [h]
  norm_num

/-- C2: after the whole pass, cash equals the sum — over exactly the
records the accumulator recognizes as cash-affecting — of the signed
deposit/withdrawal/interest amounts, `−(|total| + fee)` per buy and
`|total| − fee` per sell, independently of the position bookkeeping. -/
theorem cash_balance_decomposition (rs : List Record) :
    (analyze_portfolio rs).cash
      = ((rs.filter cashAffecting).map specCashDelta).foldl PVal.add
          (PVal.val 0) := by
  unfold analyze_portfolio
  rw [foldl_step_cash]
  exact foldl_delta_filter rs (PVal.val 0)

/-- C3: the four-record scenario ends with cash 540, an XYZ position of 10
shares and cost basis `(500 + 260) · (10/15)` (exactly `1520/3 ≈ 506.67`). -/
theorem scenario_deposit_two_buys_one_sell :
    (analyze_portfolio
      [ ⟨"Deposit", "", PVal.val 0, PVal.val 1000, PVal.val 0⟩,
        ⟨"Market buy", "XYZ", PVal.val 10, PVal.val (-500), PVal.val 0⟩,
        ⟨"Market buy", "XYZ", PVal.val 5, PVal.val (-260), PVal.val 0⟩,
        ⟨"Market sell", "XYZ", PVal.val 5, PVal.val 300, PVal.val 0⟩ ]).cash
      = PVal.val 540
    ∧ lookupPos
        (analyze_portfolio
          [ ⟨"Deposit", "", PVal.val 0, PVal.val 1000, PVal.val 0⟩,
            ⟨"Market buy", "XYZ", PVal.val 10, PVal.val (-500), PVal.val 0⟩,
            ⟨"Market buy", "XYZ", PVal.val 5, PVal.val (-260), PVal.val 0⟩,
            ⟨"Market sell", "XYZ", PVal.val 5, PVal.val 300, PVal.val 0⟩
          ]).positions "XYZ"
        = some ⟨PVal.val 10, PVal.val ((500 + 260) * (10 / 15))⟩ := by
  constructor <;>
    · simp +decide only [analyze_portfolio, step, List.foldl, PVal.add,
        PVal.sub, PVal.abs, PVal.mul, PVal.div, PVal.orZero, PVal.gtQ,
        lookupPos, setPos]
      try norm_num [lookupPos, setPos, PVal.add, PVal.sub, PVal.abs, PVal.mul,
        PVal.div, PVal.gtQ]

/-- C4 (failing-input evaluation): a Deposit whose `Total` fails numeric
coercion does NOT leave cash at 0 — `pd.to_numeric(x, errors='coerce')`
yields NaN, NaN is truthy, so `... or 0` keeps NaN and `cash += NaN` poisons
the balance; the pass itself continues (the later buy is still applied). -/
theorem nonnumeric_total_poisons_cash :
    (analyze_portfolio
      [ ⟨"Deposit", "", PVal.nan, PVal.nan, PVal.nan⟩,
        ⟨"Market buy", "T", PVal.val 1, PVal.val (-10), PVal.val 0⟩ ]).cash
      = PVal.nan
    ∧ PVal.nan ≠ PVal.val (-10)
    ∧ lookupPos
        (analyze_portfolio
          [ ⟨"Deposit", "", PVal.nan, PVal.nan, PVal.nan⟩,
            ⟨"Market buy", "T", PVal.val 1, PVal.val (-10), PVal.val 0⟩
          ]).positions "T"
        = some ⟨PVal.val 1, PVal.val 10⟩ := by
  refine ⟨?_, by simp, ?_⟩ <;>
    · simp +decide only [analyze_portfolio, step, List.foldl, PVal.add,
        PVal.sub, PVal.abs, PVal.mul, PVal.div, PVal.orZero, PVal.gtQ,
        lookupPos, setPos]
      try norm_num [lookupPos, setPos, PVal.add, PVal.sub, PVal.abs, PVal.mul,
        PVal.div, PVal.gtQ]

/-- C7: a sell whose instrument has no existing position leaves the position
map entirely unchanged and still credits cash with `|total| − fee`
(`step` is a total function: no exception is modelled or needed). -/
theorem sell_without_position_keeps_map (s : PState) (r : Record)
    (hact : r.action = "Market sell" ∨ r.action = "Limit sell")
    (hnone : lookupPos s.positions r.ticker = none) :
    (step s r).positions = s.positions
    ∧ (step s r).cash = s.cash.add ((r.total.orZero.abs).sub r.convFee.orZero) := by
  unfold step
  rcases hact with h | h <;>
    simp +decide only [h, hnone, if_true, if_false]

/-- C7 witness: selling an instrument never bought, with `|total| = 50` and
fee 2, keeps the (empty) position map and credits 48. -/
theorem sell_without_position_keeps_map_witness :
    (step ⟨PVal.val 7, []⟩
      ⟨"Limit sell", "ZZZ", PVal.val 4, PVal.val 50, PVal.val 2⟩).positions = []
    ∧ (step ⟨PVal.val 7, []⟩
        ⟨"Limit sell", "ZZZ", PVal.val 4, PVal.val 50, PVal.val 2⟩).cash
      = PVal.val 55 := by
  have h := sell_without_position_keeps_map ⟨PVal.val 7, []⟩
    ⟨"Limit sell", "ZZZ", PVal.val 4, PVal.val 50, PVal.val 2⟩
    (Or.inr rfl) (by simp [lookupPos])
  refine ⟨h.1, ?_⟩
  rw [h.2]
  norm_num [PVal.orZero, PVal.abs, PVal.sub, PVal.add]

/-- C10: a record that is none of the four buy/sell labels leaves the whole
position map unchanged, and any record leaves the position of every
instrument other than its own ticker unchanged. -/
theorem step_frame_effects (s : PState) (r : Record) :
    ((r.action ≠ "Market buy" ∧ r.action ≠ "Limit buy" ∧
      r.action ≠ "Market sell" ∧ r.action ≠ "Limit sell") →
        (step s r).positions = s.positions)
    ∧ (∀ t, t ≠ r.ticker →
        lookupPos (step s r).positions t = lookupPos s.positions t) := by
  constructor
  · rintro ⟨h1, h2, h3, h4⟩
    unfold step
    split_ifs with hd hw hi hb hs
    · rfl
    · rfl
    · rfl
    · exact absurd hb (by tauto)
    · exact absurd hs (by tauto)
    · rfl
  · intro t ht
    unfold step
    split_ifs with hd hw hi hb hs
    · rfl
    · rfl
    · rfl
    · exact lookupPos_setPos_ne s.positions r.ticker t _ ht
    · cases hl : lookupPos s.positions r.ticker with
      | none => rfl
      | some pos =>
          exact lookupPos_setPos_ne s.positions r.ticker t _ ht
    · rfl

/-- C10 witness: a Deposit leaves a one-position map untouched, and a buy of
"B" leaves the position of "A" unchanged. -/
theorem step_frame_effects_witness :
    (step ⟨PVal.val 0, [("A", ⟨PVal.val 1, PVal.val 2⟩)]⟩
      ⟨"Deposit", "", PVal.val 0, PVal.val 9, PVal.val 0⟩).positions
      = [("A", ⟨PVal.val 1, PVal.val 2⟩)]
    ∧ lookupPos
        (step ⟨PVal.val 0, [("A", ⟨PVal.val 1, PVal.val 2⟩)]⟩
          ⟨"Market buy", "B", PVal.val 1, PVal.val (-5), PVal.val 0⟩).positions
        "A"
      = lookupPos [("A", ⟨PVal.val 1, PVal.val 2⟩)] "A" := by
  constructor
  · exact (step_frame_effects ⟨PVal.val 0, [("A", ⟨PVal.val 1, PVal.val 2⟩)]⟩
      ⟨"Deposit", "", PVal.val 0, PVal.val 9, PVal.val 0⟩).1
      (by refine ⟨?_, ?_, ?_, ?_⟩ <;> decide)
  · exact (step_frame_effects ⟨PVal.val 0, [("A", ⟨PVal.val 1, PVal.val 2⟩)]⟩
      ⟨"Market buy", "B", PVal.val 1, PVal.val (-5), PVal.val 0⟩).2
      "A" (by decide)

/-- C5: a position left with shares ≤ 0.001 is dropped by the dust filter —
it is absent from the final snapshot and contributes no row to the
per-instrument output — while every position with shares > 0.001 survives;
and both aggregate totals take contributions exactly from the
above-threshold positions. -/
theorem dust_filter_drops_small_positions (rs : List Record) (t : String)
    (p : Position)
    (hp : lookupPos (analyze_portfolio rs).positions t = some p) :
    (p.shares.gtQ (1 / 1000) = false →
        lookupPos (finalPositions (analyze_portfolio rs)) t = none
      ∧ ∀ (lookup : String → Except Unit (Option ℚ))
          (priceOf : String → ℚ × String),
          ∀ row ∈ portfolioRows lookup priceOf (analyze_portfolio rs),
            row.ticker ≠ t)
    ∧ (p.shares.gtQ (1 / 1000) = true →
        lookupPos (finalPositions (analyze_portfolio rs)) t = some p)
    ∧ ∀ (lookup : String → Except Unit (Option ℚ))
        (priceOf : String → ℚ × String),
        total_invested_of lookup priceOf (analyze_portfolio rs)
          = (analyze_portfolio rs).positions.foldl
              (fun a kv => if kv.2.shares.gtQ (1 / 1000) then
                  a.add (valueRow lookup priceOf kv).costEur else a)
              (PVal.val 0)
        ∧ total_market_value_of lookup priceOf (analyze_portfolio rs)
          = (analyze_portfolio rs).positions.foldl
              (fun a kv => if kv.2.shares.gtQ (1 / 1000) then
                  a.add (valueRow lookup priceOf kv).valueEur else a)
              (PVal.val 0) := by
  have hnd := nodup_posKeys_analyze rs
  refine ⟨fun hf => ⟨?_, ?_⟩, fun htr => ?_, fun lookup priceOf => ⟨?_, ?_⟩⟩
  · exact lookupPos_filter_of_false _ _ t p hnd hp hf
  · intro lookup priceOf row hrow
    unfold portfolioRows at hrow
    obtain ⟨kv, hkv, hval⟩ := List.mem_map.mp hrow
    intro hticker
    have hkv1 : kv.1 = t := by
      rw [← hval] at hticker
      rw [valueRow_ticker] at hticker
      exact hticker
    have hkv' : kv ∈ List.filter (fun kv => kv.2.shares.gtQ (1 / 1000))
        (analyze_portfolio rs).positions := hkv
    have hmem : kv ∈ (analyze_portfolio rs).positions :=
      List.mem_of_mem_filter hkv'
    have hfil0 := List.of_mem_filter hkv'
    have hfil : kv.2.shares.gtQ (1 / 1000) = true := hfil0
    have : lookupPos (analyze_portfolio rs).positions t = some kv.2 := by
      apply lookupPos_eq_of_mem _ _ _ hnd
      rw [← hkv1]
      exact hmem
    rw [hp] at this
    injection this with hsame
    rw [hsame] at hf
    rw [hfil] at hf
    exact absurd hf (by simp)
  · exact lookupPos_filter_of_true _ _ t p hp htr
  · unfold total_invested_of portfolioRows finalPositions
    rw [List.foldl_map]
    exact foldl_add_filter _ _ _ _
  · unfold total_market_value_of portfolioRows finalPositions
    rw [List.foldl_map]
    exact foldl_add_filter _ _ _ _

/-- C5 witness: after a single buy of 1 share, the position (shares 1 >
0.001) survives the dust filter. -/
theorem dust_filter_drops_small_positions_witness :
    lookupPos
      (finalPositions (analyze_portfolio
        [⟨"Market buy", "T", PVal.val 1, PVal.val (-10), PVal.val 0⟩])) "T"
      = some ⟨PVal.val 1, PVal.val 10⟩ := by
  exact (dust_filter_drops_small_positions
      [⟨"Market buy", "T", PVal.val 1, PVal.val (-10), PVal.val 0⟩]
      "T" ⟨PVal.val 1, PVal.val 10⟩
      (by simp +decide only [analyze_portfolio, step, List.foldl, PVal.add,
            PVal.sub, PVal.abs, PVal.orZero, lookupPos, setPos]
          norm_num [lookupPos, setPos, PVal.add, PVal.abs])).2.1
    (by norm_num [PVal.gtQ])

/-- C6: percent P&L of a zero-cost-basis position is 0 (regardless of market
value); an empty surviving position set short-circuits to the
"no positions" result before any ratio is computed; and the
percent-of-total figure is 0 whenever the invested total is not positive. -/
theorem division_guards :
    (∀ (lookup : String → Except Unit (Option ℚ))
        (priceOf : String → ℚ × String) (t : String) (p : Position),
        p.cost_eur = PVal.val 0 →
        (valueRow lookup priceOf (t, p)).pnlPercent = PVal.val 0)
    ∧ (∀ (lookup : String → Except Unit (Option ℚ))
        (priceOf : String → ℚ × String) (now : String) (s : PState),
        finalPositions s = [] →
        buildReport lookup priceOf now s = ReportResult.noPositions)
    ∧ (∀ (lookup : String → Except Unit (Option ℚ))
        (priceOf : String → ℚ × String) (now : String) (s : PState)
        (d : ReportData),
        buildReport lookup priceOf now s = ReportResult.report d →
        (total_invested_of lookup priceOf s).gtQ 0 = false →
        d.unrealized_pnl_percent = PVal.val 0) := by
  refine ⟨?_, ?_, ?_⟩
  · intro lookup priceOf t p hc
    simp [valueRow, hc, PVal.gtQ]
  · intro lookup priceOf now s h
    unfold buildReport
    rw [if_pos h]
  · intro lookup priceOf now s d heq hti
    by_cases hfp : finalPositions s = []
    · unfold buildReport at heq
      rw [if_pos hfp] at heq
      exact absurd heq (by simp)
    · unfold buildReport at heq
      rw [if_neg hfp] at heq
      simp only [ReportResult.report.injEq] at heq
      rw [← heq]
      simp [hti]

/-- C6 witness: a position bought at cost 0 reports 0% P&L even with a
positive price, and an empty state yields the no-positions result. -/
theorem division_guards_witness :
    (valueRow (fun _ => Except.ok none) (fun _ => (5, "EUR"))
      ("T", ⟨PVal.val 2, PVal.val 0⟩)).pnlPercent = PVal.val 0
    ∧ buildReport (fun _ => Except.ok none) (fun _ => (5, "EUR")) "now"
        ⟨PVal.val 0, []⟩ = ReportResult.noPositions := by
  refine ⟨division_guards.1 _ _ "T" _ rfl, division_guards.2.1 _ _ "now" _ ?_⟩
  simp [finalPositions]

/-- C9: any currency other than EUR/USD/GBP gets FX rate 1.0 no matter what
the live lookup would return (the `else` branch never consults it), so a
price quoted in such a currency is taken into EUR aggregation at face
value. -/
theorem fx_unsupported_currency_is_identity
    (lookup : String → Except Unit (Option ℚ)) (c : String)
    (h1 : c ≠ "EUR") (h2 : c ≠ "USD") (h3 : c ≠ "GBP") :
    get_fx_rate lookup c "EUR" = 1
    ∧ ∀ p : ℚ, priceToEur lookup c p = p := by
  have hfx : get_fx_rate lookup c "EUR" = 1 := by
    unfold get_fx_rate
    rw [if_neg h1, if_neg h2, if_neg h3]
  refine ⟨hfx, fun p => ?_⟩
  unfold priceToEur
  rw [if_pos h1, hfx, mul_one]

/-- C9 witness: a JPY quote with a live rate available still converts with
rate 1, so a price of 7 stays 7. -/
theorem fx_unsupported_currency_is_identity_witness :
    get_fx_rate (fun _ => Except.ok (some 165)) "JPY" "EUR" = 1
    ∧ priceToEur (fun _ => Except.ok (some 165)) "JPY" 7 = 7 := by
  have h := fx_unsupported_currency_is_identity
    (fun _ => Except.ok (some 165)) "JPY" (by decide) (by decide) (by decide)
  exact ⟨h.1, h.2 7⟩

theorem render_ne_of_stamp_ne (lookup : String → Except Unit (Option ℚ))
    (priceOf : String → ℚ × String) (s : PState) (t1 t2 : String)
    (hne : t1 ≠ t2) (hs : finalPositions s ≠ []) :
    render (buildReport lookup priceOf t1 s)
      ≠ render (buildReport lookup priceOf t2 s) := by
  unfold buildReport
  rw [if_neg hs, if_neg hs]
  intro heq
  apply hne
  simp only [render] at heq
  have hd := congrArg String.data heq
  simp only [String.data_append] at hd
  have h1 := List.append_cancel_right hd
  have h2 := List.append_cancel_left h1
  have h3 := List.append_cancel_left h2
  exact string_eq_of_data_eq t1 t2 h3

/-- C8 counterexample: one deposit and one buy, fully deterministic mocked
valuation and FX, run at two wall-clock readings one second apart — the
persisted reports differ (in the `Report generated on:` line). -/
theorem pipeline_not_byte_identical_across_runs :
    render (runPipeline
        [ ⟨"Deposit", "", PVal.val 0, PVal.val 1000, PVal.val 0⟩,
          ⟨"Market buy", "AAPL", PVal.val 1, PVal.val (-100), PVal.val 0⟩ ]
        (fun _ => Except.ok none) (fun _ => (10, "EUR"))
        "2025-01-01 00:00:00")
      ≠ render (runPipeline
        [ ⟨"Deposit", "", PVal.val 0, PVal.val 1000, PVal.val 0⟩,
          ⟨"Market buy", "AAPL", PVal.val 1, PVal.val (-100), PVal.val 0⟩ ]
        (fun _ => Except.ok none) (fun _ => (10, "EUR"))
        "2025-01-01 00:00:01") := by
  unfold runPipeline
  apply render_ne_of_stamp_ne
  · decide
  · have hfin : finalPositions (analyze_portfolio
        [ ⟨"Deposit", "", PVal.val 0, PVal.val 1000, PVal.val 0⟩,
          ⟨"Market buy", "AAPL", PVal.val 1, PVal.val (-100), PVal.val 0⟩ ])
        = [("AAPL", ⟨PVal.val 1, PVal.val 100⟩)] := by
      simp +decide only [analyze_portfolio, step, List.foldl, PVal.add,
        PVal.sub, PVal.abs, PVal.orZero, lookupPos, setPos]
      norm_num [finalPositions, lookupPos, setPos, PVal.add, PVal.abs,
        PVal.gtQ, List.filter]
    rw [hfin]
    simp

/-- C8 (amended): with the valuation/FX collaborators fixed, the pipeline is
a pure function of the input, and two runs of it differ at most in the
report-generation timestamp — stripping the stamp, the persisted reports of
any two runs on identical input are byte-identical. -/
theorem pipeline_deterministic_up_to_stamp (rs : List Record)
    (lookup : String → Except Unit (Option ℚ))
    (priceOf : String → ℚ × String) (t1 t2 : String) :
    stripStamp (runPipeline rs lookup priceOf t1)
      = stripStamp (runPipeline rs lookup priceOf t2) := by
  unfold runPipeline buildReport
  by_cases h : finalPositions (analyze_portfolio rs) = []
  · rw [if_pos h, if_pos h]
  · rw [if_neg h, if_neg h]
    rfl
